import Mathlib

/-!
Verification development for the identity/label resolution engine of the
Planner task importer (Deno/TypeScript).  The definitions below are a
shallow embedding of the server-side resolution code: `normalizeKey`,
`generateMemberKeys`, `generateAssigneeKeys`, `buildMemberIndex`,
`findMemberMatches`, the per-task assignee aggregation of
`lookupAssignees`, and `lookupBuckets`.  Strings are modelled as Lean
`String` (lists of characters); the JavaScript `Map`/`Record` containers
are modelled as insertion-ordered association lists with the same
get/set semantics; fuzzy-match scores are modelled as exact rationals.
-/

namespace Planner

/-- The character class of the regex used by the normalizer after
lowercasing: lower-case ASCII letters and digits. -/
def isLowerAlnum (c : Char) : Bool :=
  (97 ≤ c.toNat && c.toNat ≤ 122) || (48 ≤ c.toNat && c.toNat ≤ 57)

/-- JavaScript whitespace as met by `String.prototype.trim` and the
regex class `\s`, restricted to the usual ASCII whitespace characters. -/
def isWsChar (c : Char) : Bool :=
  c = ' ' || c = '\t' || c = '\n' || c = '\r'

/-- Combining diacritical marks, U+0300 through U+036F: the range removed
by the normalizer right after NFKD decomposition. -/
def isCombiningMark (c : Char) : Bool :=
  0x300 ≤ c.toNat && c.toNat ≤ 0x36F

/-- The combining acute accent U+0301. -/
def combAcute : Char := Char.ofNat 0x301

/-- Unicode NFKD decomposition, per character, as performed by
`value.normalize("NFKD")`.  Modelled for the Basic Latin range (identity
under NFKD) and for the Latin-1 accented vowels this application meets;
characters outside the table are kept as-is. -/
def nfkdChar (c : Char) : List Char :=
  if c.toNat < 128 then [c]
  else if c = 'á' then ['a', combAcute]
  else if c = 'é' then ['e', combAcute]
  else if c = 'í' then ['i', combAcute]
  else if c = 'ó' then ['o', combAcute]
  else if c = 'ú' then ['u', combAcute]
  else if c = 'Á' then ['A', combAcute]
  else if c = 'É' then ['E', combAcute]
  else if c = 'Í' then ['I', combAcute]
  else if c = 'Ó' then ['O', combAcute]
  else if c = 'Ú' then ['U', combAcute]
  else [c]

/-- NFKD decomposition of a character sequence. -/
def nfkdList : List Char → List Char
  | [] => []
  | c :: rest => nfkdChar c ++ nfkdList rest

/-- `replace(/[̀-ͯ]/g, "")`: drop every combining mark. -/
def stripCombining (cs : List Char) : List Char :=
  cs.filter (fun c => !isCombiningMark c)

/-- `toLowerCase()` per character; the ASCII portion of Unicode simple
lowercasing, which is all the pipeline can meet after NFKD
decomposition and mark stripping of the names this application sees. -/
def jsLower (c : Char) : Char :=
  if 65 ≤ c.toNat && c.toNat ≤ 90 then Char.ofNat (c.toNat + 32) else c

/-- Collapse adjacent duplicate spaces to a single space. -/
def collapseSpaces : List Char → List Char
  | [] => []
  | [c] => [c]
  | a :: b :: rest =>
      if a = ' ' && b = ' ' then collapseSpaces (b :: rest)
      else a :: collapseSpaces (b :: rest)

/-- `replace(/[^a-z0-9]+/g, " ")`: every maximal run of characters
outside `[a-z0-9]` becomes one space.  Realised as mapping each such
character to a space and collapsing adjacent spaces, which replaces each
run by a single space. -/
def replaceNonAlnumRuns (cs : List Char) : List Char :=
  collapseSpaces (cs.map (fun c => if isLowerAlnum c then c else ' '))

/-- Drop leading whitespace. -/
def trimLeft (cs : List Char) : List Char :=
  cs.dropWhile isWsChar

/-- Drop trailing whitespace. -/
def trimRight : List Char → List Char
  | [] => []
  | c :: rest =>
      let r := trimRight rest
      if r.isEmpty then (if isWsChar c then [] else [c]) else c :: r

/-- `String.prototype.trim()`: drop whitespace at both ends. -/
def trimChars (cs : List Char) : List Char :=
  trimRight (trimLeft cs)

/-- `replace(/\s+/g, " ")`: every maximal whitespace run becomes one
space; realised as mapping whitespace to a space and collapsing runs. -/
def collapseWsRuns (cs : List Char) : List Char :=
  collapseSpaces (cs.map (fun c => if isWsChar c then ' ' else c))

/-- `normalizeKey`: NFKD-decompose, strip combining marks, lowercase,
replace runs of non-alphanumerics with one space, trim, and collapse
whitespace runs.  The leading emptiness test mirrors the falsiness guard
of the source. -/
def normalizeKey (s : String) : String :=
  if s.isEmpty then "" else
    String.mk
      (collapseWsRuns
        (trimChars
          (replaceNonAlnumRuns
            ((stripCombining (nfkdList s.data)).map jsLower))))

/-- `String.prototype.trim()` on a whole string. -/
def jsTrim (s : String) : String := String.mk (trimChars s.data)

/-- `toLowerCase()` on a whole string (ASCII portion, see `jsLower`). -/
def jsLowerStr (s : String) : String := String.mk (s.data.map jsLower)

/-- One pass of `replace` with the lazy parenthetical pattern: on an
opening parenthesis start buffering; a closing parenthesis discards the
buffered segment (the regex match); a newline cannot be crossed by the
dot, so it flushes the buffer verbatim; a dangling open parenthesis at
the end of input is flushed verbatim as well. -/
def stripParensGo : List Char → Option (List Char) → List Char
  | [], none => []
  | [], some buf => buf.reverse
  | c :: rest, none =>
      if c = '(' then stripParensGo rest (some [c])
      else c :: stripParensGo rest none
  | c :: rest, some buf =>
      if c = ')' then stripParensGo rest none
      else if c = '\n' then buf.reverse ++ '\n' :: stripParensGo rest none
      else stripParensGo rest (some (c :: buf))

/-- `replace` with the global lazy parenthetical pattern: remove every
parenthesized segment. -/
def stripParens (cs : List Char) : List Char := stripParensGo cs none

/-- `String.prototype.split(sep)` for a one-character separator. -/
def splitOnChar (sep : Char) : List Char → List (List Char)
  | [] => [[]]
  | c :: rest =>
      if c = sep then [] :: splitOnChar sep rest
      else
        match splitOnChar sep rest with
        | [] => [[c]]
        | p :: ps => (c :: p) :: ps

/-- Does the needle occur at the very start of the haystack? -/
def beginsWith : List Char → List Char → Bool
  | [], _ => true
  | _ :: _, [] => false
  | a :: as, b :: bs => a == b && beginsWith as bs

/-- `String.prototype.includes`: does the haystack contain the needle as
a contiguous substring? -/
def containsSub (hay : List Char) (needle : List Char) : Bool :=
  match hay with
  | [] => needle.isEmpty
  | b :: bs => beginsWith needle (b :: bs) || containsSub bs needle

/-- `Map.prototype.get` over an insertion-ordered association list. -/
def mapGet {α : Type} (m : List (String × α)) (k : String) : Option α :=
  (m.find? (fun e => e.1 == k)).map (fun e => e.2)

/-- `Map.prototype.set`: overwrite in place when the key is present,
append otherwise (JavaScript maps and records keep insertion order). -/
def mapSet {α : Type} (m : List (String × α)) (k : String) (v : α) : List (String × α) :=
  if m.any (fun e => e.1 == k) then m.map (fun e => if e.1 == k then (k, v) else e)
  else m ++ [(k, v)]

/-- `Set.prototype.add` realised on an insertion-ordered list. -/
def addKey (ks : List String) (k : String) : List String :=
  if ks.contains k then ks else ks ++ [k]

/-- JavaScript truthiness of an optional string field: present and
non-empty. -/
def truthy : Option String → Bool
  | none => false
  | some s => !s.isEmpty

/-- A plan roster member as fetched from the directory (auth module). -/
structure PlannerMember where
  id : String
  displayName : String
  mail : Option String := none
  userPrincipalName : Option String := none
  givenName : Option String := none
  surname : Option String := none
  companyName : Option String := none
deriving DecidableEq

/-- `generateMemberKeys`: the deduplicated alias keys of one roster
member, with empty keys filtered out at the end. -/
def generateMemberKeys (m : PlannerMember) : List String :=
  let keys : List String := []
  let keys := if !m.displayName.isEmpty then addKey keys (normalizeKey m.displayName) else keys
  let keys :=
    if truthy m.givenName && truthy m.surname then
      addKey (addKey keys
          (normalizeKey (m.givenName.getD "" ++ " " ++ m.surname.getD "")))
        (normalizeKey (m.surname.getD "" ++ " " ++ m.givenName.getD ""))
    else keys
  let keys :=
    if truthy m.companyName && truthy m.givenName && truthy m.surname then
      addKey (addKey keys
          (normalizeKey (m.givenName.getD "" ++ " " ++ m.surname.getD "" ++ " " ++ m.companyName.getD "")))
        (normalizeKey (m.surname.getD "" ++ " " ++ m.givenName.getD "" ++ " " ++ m.companyName.getD ""))
    else keys
  let keys := if truthy m.mail then addKey keys (jsLowerStr (m.mail.getD "")) else keys
  let keys := if truthy m.userPrincipalName then addKey keys (jsLowerStr (m.userPrincipalName.getD "")) else keys
  keys.filter (fun k => 0 < k.length)

/-- The pair returned by `generateAssigneeKeys`. -/
structure AssigneeKeys where
  keys : List String
  tokens : List String
deriving DecidableEq

/-- `generateAssigneeKeys`: lookup keys and fallback tokens generated
from one raw free-text assignee name. -/
def generateAssigneeKeys (name : String) : AssigneeKeys :=
  let lower := jsTrim name
  if lower.isEmpty then ⟨[], []⟩ else
  let keys := addKey [] (normalizeKey lower)
  let noParen := jsTrim (String.mk (stripParens lower.data))
  let keys := if noParen ≠ lower then addKey keys (normalizeKey noParen) else keys
  let keys := if lower.data.contains '@' then addKey keys (jsLowerStr lower) else keys
  let keys :=
    if lower.data.contains ',' then
      let parts := (splitOnChar ',' lower.data).map (fun p => jsTrim (String.mk (stripParens p)))
      match parts with
      | [last, first] =>
          addKey (addKey keys (normalizeKey (first ++ " " ++ last)))
            (normalizeKey (last ++ " " ++ first))
      | _ => keys
    else keys
  let sanitized := String.mk (noParen.data.map (fun c => if c = ',' then ' ' else c))
  let tokens := ((splitOnChar ' ' (normalizeKey sanitized).data).map String.mk).filter
    (fun t => 0 < t.length)
  let keys :=
    if 2 ≤ tokens.length then
      let first := tokens.headI
      let last := tokens.getLastD ""
      addKey (addKey keys (normalizeKey (first ++ " " ++ last)))
        (normalizeKey (last ++ " " ++ first))
    else keys
  ⟨keys.filter (fun k => 0 < k.length), tokens⟩

/-- The searchable text of one roster member: the normalized
concatenation of all its name-like fields, absent fields contributing
the empty string. -/
def searchTextOf (m : PlannerMember) : String :=
  normalizeKey (m.displayName ++ " " ++ m.mail.getD "" ++ " " ++ m.userPrincipalName.getD ""
    ++ " " ++ m.givenName.getD "" ++ " " ++ m.surname.getD "" ++ " " ++ m.companyName.getD "")

/-- The structure returned by `buildMemberIndex`. -/
structure MemberIndex where
  keyMap : List (String × List PlannerMember)
  entries : List (PlannerMember × String)
deriving DecidableEq

/-- One iteration of the `buildMemberIndex` loop: append the member to
the list stored under each of its keys, and append its entry. -/
def indexInsertMember (idx : MemberIndex) (member : PlannerMember) : MemberIndex :=
  let km := (generateMemberKeys member).foldl
    (fun km key => mapSet km key ((mapGet km key).getD [] ++ [member])) idx.keyMap
  ⟨km, idx.entries ++ [(member, searchTextOf member)]⟩

/-- `buildMemberIndex`: key map plus flat entry list over the roster. -/
def buildMemberIndex (members : List PlannerMember) : MemberIndex :=
  members.foldl indexInsertMember ⟨[], []⟩

/-- Push a member unless one with the same id is already present; the
dedup-by-id discipline of both matching loops. -/
def pushIfNewId (ms : List PlannerMember) (m : PlannerMember) : List PlannerMember :=
  if ms.any (fun e => e.id == m.id) then ms else ms ++ [m]

/-- The key-lookup phase of `findMemberMatches`.  A present key always
stores a non-empty list, so the length guard of the source is the loop
over the stored list itself. -/
def keyPhaseMatches (keys : List String) (idx : MemberIndex) : List PlannerMember :=
  keys.foldl (fun ms key =>
    match mapGet idx.keyMap key with
    | some membersForKey => membersForKey.foldl pushIfNewId ms
    | none => ms) []

/-- The token-containment fallback phase of `findMemberMatches`. -/
def fallbackMatches (tokens : List String) (idx : MemberIndex)
    (ms0 : List PlannerMember) : List PlannerMember :=
  idx.entries.foldl (fun ms e =>
    if tokens.all (fun t => containsSub e.2.data t.data) then pushIfNewId ms e.1 else ms) ms0

/-- `findMemberMatches`: exact-key union first; on an empty union and a
non-empty token list, the containment fallback over the entries. -/
def findMemberMatches (name : String) (idx : MemberIndex) : List PlannerMember :=
  let ak := generateAssigneeKeys name
  let ms := keyPhaseMatches ak.keys idx
  if 0 < ms.length then ms
  else if ak.tokens.length = 0 then ms
  else fallbackMatches ak.tokens idx ms

/-- A matched user: the member enriched with the raw name it matched and
its provenance tag (the source spreads the member's fields flat). -/
structure AssignedUser where
  member : PlannerMember
  originalName : String
  source : String
deriving DecidableEq

/-- The record returned by the `evaluateAssignee` closure. -/
structure AssigneeEval where
  users : List AssignedUser
  candidates : List AssignedUser
  needsReview : Bool
deriving DecidableEq

/-- `evaluateAssignee`: exactly one match resolves, several are returned
as candidates needing review, none is an unresolved result needing
review. -/
def evaluateAssignee (name : String) (idx : MemberIndex) : AssigneeEval :=
  let found := findMemberMatches name idx
  match found with
  | [m] => ⟨[⟨m, name, "planner-member"⟩], [], false⟩
  | [] => ⟨[], [], true⟩
  | ms => ⟨[], ms.map (fun m => ⟨m, name, "planner-member"⟩), true⟩

/-- A parsed spreadsheet task row. -/
structure ParsedTask where
  title : String
  description : Option String := none
  startDate : Option String := none
  dueDate : Option String := none
  assignee : Option String := none
  assignees : Option (List String) := none
  bucketName : Option String := none
  status : Option String := none
deriving DecidableEq

/-- The bucket enrichment attached to a task on a bucket match. -/
structure BucketInfo where
  id : String
  name : String
  originalName : String
  exactMatch : Bool
deriving DecidableEq

/-- A processed task: the parsed task plus the optional enrichment
fields; an absent JavaScript property is `none`. -/
structure ProcessedTask extends ParsedTask where
  assigneeUsers : Option (List AssignedUser) := none
  assigneeLookupFailed : Option Bool := none
  assigneeLookupFailedList : Option (List String) := none
  assigneeCandidates : Option (List AssignedUser) := none
  assigneeNeedsReview : Option Bool := none
  bucketInfo : Option BucketInfo := none
  bucketLookupFailed : Option Bool := none
deriving DecidableEq

/-- The accumulator of the multi-assignee merging loop. -/
structure MergeAcc where
  matchedUsers : List AssignedUser
  failed : List String
  candidates : List AssignedUser
  needsReview : Bool
deriving DecidableEq

/-- One iteration of the multi-assignee merging loop of
`lookupAssignees`. -/
def mergeStep (idx : MemberIndex) (acc : MergeAcc) (assigneeName : String) : MergeAcc :=
  let result := evaluateAssignee assigneeName idx
  let matchedUsers :=
    if 0 < result.users.length then acc.matchedUsers ++ result.users else acc.matchedUsers
  let failed :=
    if 0 < result.users.length then acc.failed else acc.failed ++ [assigneeName]
  let candidates :=
    if 0 < result.candidates.length then acc.candidates ++ result.candidates else acc.candidates
  let needsReview := acc.needsReview || result.needsReview
  ⟨matchedUsers, failed, candidates, needsReview⟩

/-- The whole multi-assignee merging loop. -/
def mergeAssignees (idx : MemberIndex) (names : List String) : MergeAcc :=
  names.foldl (mergeStep idx) ⟨[], [], [], false⟩

/-- The per-task body of the `lookupAssignees` loop: the multi-assignee
branch when a non-empty `assignees` list is present, the single-assignee
branch when a truthy `assignee` is present, otherwise the task is kept
bare. -/
def processAssigneeTask (idx : MemberIndex) (task : ParsedTask) : ProcessedTask :=
  let processedTask : ProcessedTask := { toParsedTask := task }
  match task.assignees with
  | some (a :: rest) =>
      let r := mergeAssignees idx (a :: rest)
      { processedTask with
        assigneeUsers := if 0 < r.matchedUsers.length then some r.matchedUsers else none,
        assigneeLookupFailedList := if 0 < r.failed.length then some r.failed else none,
        assigneeCandidates := if 0 < r.candidates.length then some r.candidates else none,
        assigneeNeedsReview := if r.needsReview then some true else none }
  | _ =>
      match task.assignee with
      | some assignee =>
          if assignee.isEmpty then processedTask
          else
            let result := evaluateAssignee assignee idx
            if 0 < result.users.length then
              { processedTask with assigneeUsers := some result.users }
            else
              { processedTask with
                assigneeLookupFailed := some true,
                assigneeCandidates :=
                  if 0 < result.candidates.length then some result.candidates else none,
                assigneeNeedsReview := some true }
      | none => processedTask

/-- `lookupAssignees`, with the roster snapshot passed as plain data
(the auth handle and access token of the source do not take part in the
resolution). -/
def lookupAssignees (tasks : List ParsedTask) (plannerMembers : List PlannerMember) :
    List ProcessedTask :=
  let memberIndex := buildMemberIndex plannerMembers
  tasks.map (processAssigneeTask memberIndex)

/-- An existing Planner bucket from the snapshot. -/
structure PlannerBucket where
  id : String
  name : String
deriving DecidableEq

/-- The case-insensitive name-to-bucket record of `lookupBuckets`; a
record assignment overwrites, so the last bucket with a given lowercase
name wins. -/
def buildBucketLookup (buckets : List PlannerBucket) : List (String × PlannerBucket) :=
  buckets.foldl (fun m bucket => mapSet m (jsLowerStr bucket.name) bucket) []

/-- The distinct truthy bucket labels referenced by the task batch. -/
def uniqueBucketNames (tasks : List ProcessedTask) : List String :=
  tasks.foldl (fun s task =>
    match task.bucketName with
    | some bn => if bn.isEmpty then s else addKey s bn
    | none => s) []

/-- The fuzzy score of a raw label against one existing lowercase
name: the length ratio, as an exact rational (the source computes it in
floating point). -/
def bucketScore (bucketName availableName : String) : ℚ :=
  ((min bucketName.length availableName.length : ℕ) : ℚ)
    / ((max bucketName.length availableName.length : ℕ) : ℚ)

/-- One iteration of the fuzzy scan of `lookupBuckets`: update the
running best (match, score) pair when the candidate is in a containment
relation with the raw label and its score strictly improves on the best
score so far while strictly exceeding 0.5.  The lowercased raw label is
recomputed here rather than hoisted out of the loop, which does not
change the result. -/
def fuzzyStep (bucketName : String) (acc : Option (PlannerBucket × Bool) × ℚ)
    (entry : String × PlannerBucket) : Option (PlannerBucket × Bool) × ℚ :=
  let lowerName := jsLowerStr bucketName
  let availableName := entry.1
  if containsSub lowerName.data availableName.data
      || containsSub availableName.data lowerName.data then
    let score := bucketScore bucketName availableName
    if acc.2 < score ∧ (1 : ℚ)/2 < score then (some (entry.2, false), score) else acc
  else acc

/-- The fuzzy pass of `lookupBuckets` over the entries of the lookup
record, starting from a null best match and best score 0.  The result
pairs the chosen bucket (tagged not-exact) with its score. -/
def fuzzyBestMatch (bucketName : String) (bucketLookup : List (String × PlannerBucket)) :
    Option (PlannerBucket × Bool) × ℚ :=
  bucketLookup.foldl (fuzzyStep bucketName) (none, 0)

/-- The value stored into the mapping record for one distinct raw
label: the exact case-insensitive hit tagged exact when present,
otherwise the best fuzzy match (possibly null). -/
def bucketOutcome (bucketLookup : List (String × PlannerBucket)) (bucketName : String) :
    Option (PlannerBucket × Bool) :=
  let lowerName := jsLowerStr bucketName
  match mapGet bucketLookup lowerName with
  | some bucket => some (bucket, true)
  | none => (fuzzyBestMatch bucketName bucketLookup).1

/-- The label-to-outcome record of `lookupBuckets`: each distinct label
is assigned its outcome. -/
def buildBucketMapping (names : List String) (bucketLookup : List (String × PlannerBucket)) :
    List (String × Option (PlannerBucket × Bool)) :=
  names.foldl (fun m bucketName => mapSet m bucketName (bucketOutcome bucketLookup bucketName)) []

/-- The application phase of `lookupBuckets`: a truthy mapping value
becomes `bucketInfo`, a truthy label without one marks the task as
failed, a falsy label leaves the task untouched. -/
def applyBucketInfo (bucketMapping : List (String × Option (PlannerBucket × Bool)))
    (task : ProcessedTask) : ProcessedTask :=
  match task.bucketName with
  | some bn =>
      if bn.isEmpty then task
      else
        match mapGet bucketMapping bn with
        | some (some mb) => { task with bucketInfo := some ⟨mb.1.id, mb.1.name, bn, mb.2⟩ }
        | some none => { task with bucketLookupFailed := some true }
        | none => { task with bucketLookupFailed := some true }
  | none => task

/-- `lookupBuckets`, with the bucket snapshot passed as plain data. -/
def lookupBuckets (tasks : List ProcessedTask) (buckets : List PlannerBucket) :
    List ProcessedTask :=
  let bucketLookup := buildBucketLookup buckets
  let bucketMapping := buildBucketMapping (uniqueBucketNames tasks) bucketLookup
  tasks.map (applyBucketInfo bucketMapping)

/-! ### Lemmas about the normalizer -/

/-- A character that can occur in a normalizer output: a lower-case
ASCII alphanumeric or a single space. -/
def goodChar (c : Char) : Bool := isLowerAlnum c || c == ' '

/-- No two adjacent spaces. -/
abbrev NoTwo (cs : List Char) : Prop :=
  List.Chain' (fun a b => ¬(a = ' ' ∧ b = ' ')) cs

/-- The containment precondition of the fuzzy scan, as tested by the
source between the lowercased raw label and a lowercased existing
name. -/
def bucketQualifies (bucketName availableName : String) : Prop :=
  (containsSub (jsLowerStr bucketName).data availableName.data
    || containsSub availableName.data (jsLowerStr bucketName).data) = true

/-- Erase the two fields written by the bucket lookup phase. -/
def eraseBucketEnrichment (t : ProcessedTask) : ProcessedTask :=
  { t with bucketInfo := none, bucketLookupFailed := none }

/-! ### Concrete fixtures for the test-point theorems -/

/-- A roster member named Ann Lee. -/
def annLee : PlannerMember := { id := "u1", displayName := "Ann Lee" }

/-- A second, distinct roster member also named Ann Lee. -/
def annLee2 : PlannerMember := { id := "u2", displayName := "Ann Lee" }

/-- The index over the one-member roster. -/
def annIdx : MemberIndex := buildMemberIndex [annLee]

/-- The index over the two same-named members. -/
def ambIdx : MemberIndex := buildMemberIndex [annLee, annLee2]

/-- An existing bucket named Development. -/
def developmentBucket : PlannerBucket := { id := "b1", name := "Development" }

/-- An existing bucket named Design. -/
def designBucket : PlannerBucket := { id := "b2", name := "Design" }

/-- An existing bucket named Planning. -/
def planningBucket : PlannerBucket := { id := "b3", name := "Planning" }

/-- A processed task referencing the given raw bucket label. -/
def bucketTask (bn : String) : ProcessedTask := { title := "t", bucketName := some bn }

/-- A task naming two assignees, of which only Ann Lee exists. -/
def multiTask : ParsedTask := { title := "t", assignees := some ["Ann Lee", "Bob Kim"] }

/-- A task naming the one ambiguous assignee. -/
def ambTask : ParsedTask := { title := "t", assignees := some ["Ann Lee"] }

theorem collapseSpaces_sublist : ∀ cs : List Char, List.Sublist (collapseSpaces cs) cs := by
  intro cs
  induction cs with
  | nil => simp [collapseSpaces]
  | cons a l ih =>
    cases l with
    | nil => simp [collapseSpaces]
    | cons b rest =>
      rw [collapseSpaces]
      split
      · exact (ih).trans (List.sublist_cons_self a (b :: rest))
      · exact ih.cons₂ a

theorem mem_collapseSpaces {c : Char} {cs : List Char}
    (h : c ∈ collapseSpaces cs) : c ∈ cs :=
  (collapseSpaces_sublist cs).subset h

theorem head?_collapseSpaces {b : Char} (rest : List Char) (hb : b ≠ ' ') :
    (collapseSpaces (b :: rest)).head? = some b := by
  cases rest with
  | nil => simp [collapseSpaces]
  | cons c r => simp [collapseSpaces, hb]

theorem noTwo_collapseSpaces : ∀ cs : List Char, NoTwo (collapseSpaces cs) := by
  intro cs
  induction cs with
  | nil => simp [collapseSpaces, NoTwo]
  | cons a l ih =>
    cases l with
    | nil => simp [collapseSpaces, NoTwo]
    | cons b rest =>
      rw [collapseSpaces]
      split
      · exact ih
      · rename_i hcond
        rw [NoTwo, List.chain'_cons']
        refine ⟨?_, ih⟩
        intro y hy hay
        by_cases ha : a = ' '
        · have hb : b ≠ ' ' := by
            intro hb
            exact hcond (by simp [ha, hb])
          rw [head?_collapseSpaces rest hb] at hy
          cases hy
          exact hb hay.2
        · exact ha hay.1

theorem collapseSpaces_eq_self : ∀ cs : List Char, NoTwo cs → collapseSpaces cs = cs := by
  intro cs
  induction cs with
  | nil => intro _; simp [collapseSpaces]
  | cons a l ih =>
    cases l with
    | nil => intro _; simp [collapseSpaces]
    | cons b rest =>
      intro h
      rw [NoTwo, List.chain'_cons] at h
      rw [collapseSpaces]
      have hcond : ¬(a = ' ' ∧ b = ' ') := h.1
      split
      · rename_i hc
        simp only [Bool.and_eq_true, decide_eq_true_eq] at hc
        exact absurd hc hcond
      · rw [ih h.2]

theorem trimRight_extends : ∀ cs : List Char, ∃ t, trimRight cs ++ t = cs := by
  intro cs
  induction cs with
  | nil => exact ⟨[], rfl⟩
  | cons c rest ih =>
    rw [trimRight]
    split
    · split
      · exact ⟨c :: rest, rfl⟩
      · exact ⟨rest, rfl⟩
    · obtain ⟨t, ht⟩ := ih
      exact ⟨t, by rw [List.cons_append, ht]⟩

theorem head?_of_extends {l₁ l₂ : List Char} (h : ∃ t, l₁ ++ t = l₂) (hne : l₁ ≠ []) :
    l₁.head? = l₂.head? := by
  obtain ⟨t, rfl⟩ := h
  cases l₁ with
  | nil => exact absurd rfl hne
  | cons a l => simp

theorem noTwo_append_left : ∀ (l t : List Char), NoTwo (l ++ t) → NoTwo l := by
  intro l
  induction l with
  | nil => intro t _; exact List.chain'_nil
  | cons a l ih =>
    intro t h
    cases l with
    | nil => exact List.chain'_singleton a
    | cons b l2 =>
      rw [List.cons_append, List.cons_append] at h
      have h' := List.chain'_cons.mp h
      exact List.chain'_cons.mpr ⟨h'.1, ih t (by rw [List.cons_append]; exact h'.2)⟩

theorem noTrailWs_trimRight : ∀ cs : List Char, ∀ c ∈ (trimRight cs).getLast?, isWsChar c = false := by
  intro cs
  induction cs with
  | nil => simp [trimRight]
  | cons c rest ih =>
    rw [trimRight]
    split
    · split
      · simp
      · rename_i hws
        intro d hd
        simp only [List.getLast?_singleton, Option.mem_def, Option.some.injEq] at hd
        subst hd
        simpa using hws
    · rename_i hne
      intro d hd
      apply ih
      cases htr : trimRight rest with
      | nil => rw [htr] at hne; simp at hne
      | cons e l =>
        rw [htr] at hd
        rw [List.getLast?_cons_cons] at hd
        exact hd

theorem trimRight_eq_self : ∀ cs : List Char,
    (∀ c ∈ cs.getLast?, isWsChar c = false) → trimRight cs = cs := by
  intro cs
  induction cs with
  | nil => intro _; rfl
  | cons c rest ih =>
    intro h
    rw [trimRight]
    cases rest with
    | nil =>
      have hc : isWsChar c = false := h c (by simp)
      simp [trimRight, hc]
    | cons b l =>
      have hrest : trimRight (b :: l) = b :: l := by
        apply ih
        intro d hd
        apply h
        rw [List.getLast?_cons_cons]
        exact hd
      simp [hrest]

theorem dropWhile_eq_self_of_head {p : Char → Bool} : ∀ cs : List Char,
    (∀ c ∈ cs.head?, p c = false) → cs.dropWhile p = cs := by
  intro cs h
  cases cs with
  | nil => rfl
  | cons c rest =>
    have hc : p c = false := h c (by simp)
    simp [List.dropWhile_cons, hc]

theorem head?_trimLeft_not_ws (cs : List Char) :
    ∀ c ∈ (trimLeft cs).head?, isWsChar c = false := by
  intro c hc
  have := List.head?_dropWhile_not isWsChar cs
  rw [trimLeft] at hc
  rw [Option.mem_def] at hc
  rw [hc] at this
  exact this

theorem isLowerAlnum_toNat {c : Char} (h : isLowerAlnum c = true) :
    (97 ≤ c.toNat ∧ c.toNat ≤ 122) ∨ (48 ≤ c.toNat ∧ c.toNat ≤ 57) := by
  rw [isLowerAlnum] at h
  simp only [Bool.or_eq_true, Bool.and_eq_true, decide_eq_true_eq] at h
  exact h

theorem toNat_ne_of_ne {c : Char} {n : ℕ} (h : c.toNat ≠ n) {d : Char} (hd : d.toNat = n) :
    c ≠ d := by
  intro e
  rw [e, hd] at h
  exact h rfl

theorem goodChar_cases {c : Char} (h : goodChar c = true) :
    isLowerAlnum c = true ∨ c = ' ' := by
  rw [goodChar] at h
  simp only [Bool.or_eq_true, beq_iff_eq] at h
  exact h

theorem alnum_not_ws {c : Char} (h : isLowerAlnum c = true) : isWsChar c = false := by
  have hb := isLowerAlnum_toNat h
  rw [isWsChar]
  simp only [Bool.or_eq_false_iff, decide_eq_false_iff_not]
  refine ⟨⟨⟨?_, ?_⟩, ?_⟩, ?_⟩
  · exact toNat_ne_of_ne (show c.toNat ≠ 32 by omega) (by decide)
  · exact toNat_ne_of_ne (show c.toNat ≠ 9 by omega) (by decide)
  · exact toNat_ne_of_ne (show c.toNat ≠ 10 by omega) (by decide)
  · exact toNat_ne_of_ne (show c.toNat ≠ 13 by omega) (by decide)

theorem goodChar_not_ws {c : Char} (h : goodChar c = true) (hc : c ≠ ' ') :
    isWsChar c = false := by
  rcases goodChar_cases h with h' | h'
  · exact alnum_not_ws h'
  · exact absurd h' hc

theorem nfkdChar_good {c : Char} (h : goodChar c = true) : nfkdChar c = [c] := by
  have hlt : c.toNat < 128 := by
    rcases goodChar_cases h with h' | h'
    · rcases isLowerAlnum_toNat h' with h'' | h'' <;> omega
    · rw [h']; decide
  rw [nfkdChar, if_pos hlt]

theorem nfkdList_eq_self : ∀ cs : List Char,
    (∀ c ∈ cs, goodChar c = true) → nfkdList cs = cs := by
  intro cs
  induction cs with
  | nil => intro _; rfl
  | cons c rest ih =>
    intro h
    rw [nfkdList, nfkdChar_good (h c (by simp)), ih (fun d hd => h d (by simp [hd]))]
    rfl

theorem stripCombining_eq_self {cs : List Char}
    (h : ∀ c ∈ cs, goodChar c = true) : stripCombining cs = cs := by
  rw [stripCombining]
  rw [List.filter_eq_self]
  intro c hc
  have hg := h c hc
  have hlt : c.toNat < 0x300 := by
    rcases goodChar_cases hg with h' | h'
    · rcases isLowerAlnum_toNat h' with h'' | h'' <;> omega
    · rw [h']; decide
  rw [isCombiningMark]
  simp only [Bool.not_eq_eq_eq_not, Bool.not_true, Bool.and_eq_false_iff,
    decide_eq_false_iff_not]
  left; omega

theorem map_eq_self_of {α : Type} {f : α → α} : ∀ l : List α,
    (∀ c ∈ l, f c = c) → l.map f = l := by
  intro l
  induction l with
  | nil => intro _; rfl
  | cons a l ih =>
    intro h
    rw [List.map_cons, h a (by simp), ih (fun d hd => h d (by simp [hd]))]

theorem jsLower_good {c : Char} (h : goodChar c = true) : jsLower c = c := by
  rw [jsLower]
  rw [if_neg]
  simp only [Bool.and_eq_true, decide_eq_true_eq, not_and]
  intro h1 h2
  rcases goodChar_cases h with h' | h'
  · rcases isLowerAlnum_toNat h' with h'' | h'' <;> omega
  · rw [h'] at h1 h2
    revert h1
    decide

theorem map_jsLower_eq_self {cs : List Char}
    (h : ∀ c ∈ cs, goodChar c = true) : cs.map jsLower = cs :=
  map_eq_self_of cs (fun c hc => jsLower_good (h c hc))

theorem replaceNonAlnumRuns_eq_self {cs : List Char}
    (hg : ∀ c ∈ cs, goodChar c = true) (h2 : NoTwo cs) :
    replaceNonAlnumRuns cs = cs := by
  rw [replaceNonAlnumRuns]
  rw [map_eq_self_of]
  · exact collapseSpaces_eq_self cs h2
  · intro c hc
    rcases goodChar_cases (hg c hc) with h' | h'
    · rw [if_pos h']
    · rw [h']
      simp

theorem collapseWsRuns_eq_self {cs : List Char}
    (hg : ∀ c ∈ cs, goodChar c = true) (h2 : NoTwo cs) :
    collapseWsRuns cs = cs := by
  rw [collapseWsRuns]
  rw [map_eq_self_of]
  · exact collapseSpaces_eq_self cs h2
  · intro c hc
    by_cases hsp : c = ' '
    · rw [hsp]; simp
    · rw [goodChar_not_ws (hg c hc) hsp]; simp

theorem trimChars_eq_self {cs : List Char}
    (hh : ∀ c ∈ cs.head?, isWsChar c = false)
    (hl : ∀ c ∈ cs.getLast?, isWsChar c = false) :
    trimChars cs = cs := by
  rw [trimChars, trimLeft, dropWhile_eq_self_of_head cs hh]
  exact trimRight_eq_self cs hl

theorem replaceNonAlnumRuns_all_good (xs : List Char) :
    ∀ c ∈ replaceNonAlnumRuns xs, goodChar c = true := by
  intro c hc
  rw [replaceNonAlnumRuns] at hc
  have hm := mem_collapseSpaces hc
  obtain ⟨a, _, rfl⟩ := List.mem_map.1 hm
  by_cases h : isLowerAlnum a = true
  · rw [if_pos h, goodChar, h]
    rfl
  · rw [if_neg h]
    decide

theorem replaceNonAlnumRuns_noTwo (xs : List Char) : NoTwo (replaceNonAlnumRuns xs) :=
  noTwo_collapseSpaces _

theorem mem_trimChars {c : Char} {cs : List Char} (h : c ∈ trimChars cs) : c ∈ cs := by
  rw [trimChars] at h
  obtain ⟨t, ht⟩ := trimRight_extends (trimLeft cs)
  have h1 : c ∈ trimLeft cs := by
    rw [← ht]
    exact List.mem_append_left t h
  rw [trimLeft] at h1
  exact (List.dropWhile_sublist isWsChar).subset h1

theorem trimChars_noTwo {cs : List Char} (h : NoTwo cs) : NoTwo (trimChars cs) := by
  rw [trimChars]
  obtain ⟨t, ht⟩ := trimRight_extends (trimLeft cs)
  have hsuf : NoTwo (trimLeft cs) := h.suffix (List.dropWhile_suffix isWsChar)
  rw [← ht] at hsuf
  exact noTwo_append_left _ t hsuf

theorem trimChars_head_not_ws (cs : List Char) :
    ∀ c ∈ (trimChars cs).head?, isWsChar c = false := by
  intro c hc
  rw [trimChars] at hc
  cases htr : trimRight (trimLeft cs) with
  | nil => rw [htr] at hc; simp at hc
  | cons e l =>
    rw [htr] at hc
    have hne : trimRight (trimLeft cs) ≠ [] := by rw [htr]; simp
    have := head?_of_extends (trimRight_extends (trimLeft cs)) hne
    rw [htr] at this
    apply head?_trimLeft_not_ws cs
    rw [← this]
    exact hc

theorem trimChars_last_not_ws (cs : List Char) :
    ∀ c ∈ (trimChars cs).getLast?, isWsChar c = false := by
  rw [trimChars]
  exact noTrailWs_trimRight (trimLeft cs)

theorem normalizeKey_data_canonical (s : String) :
    (∀ c ∈ (normalizeKey s).data, goodChar c = true) ∧ NoTwo (normalizeKey s).data
    ∧ (∀ c ∈ (normalizeKey s).data.head?, isWsChar c = false)
    ∧ (∀ c ∈ (normalizeKey s).data.getLast?, isWsChar c = false) := by
  rw [normalizeKey]
  split
  · refine ⟨by simp, by simp, by simp, by simp⟩
  · have hTg : ∀ c ∈ trimChars (replaceNonAlnumRuns
        ((stripCombining (nfkdList s.data)).map jsLower)), goodChar c = true :=
      fun c hc => replaceNonAlnumRuns_all_good _ c (mem_trimChars hc)
    have hT2 : NoTwo (trimChars (replaceNonAlnumRuns
        ((stripCombining (nfkdList s.data)).map jsLower))) :=
      trimChars_noTwo (replaceNonAlnumRuns_noTwo _)
    have hout : collapseWsRuns (trimChars (replaceNonAlnumRuns
        ((stripCombining (nfkdList s.data)).map jsLower)))
        = trimChars (replaceNonAlnumRuns ((stripCombining (nfkdList s.data)).map jsLower)) :=
      collapseWsRuns_eq_self hTg hT2
    refine ⟨?_, ?_, ?_, ?_⟩
    · intro c hc
      rw [show (String.mk (collapseWsRuns (trimChars (replaceNonAlnumRuns
          ((stripCombining (nfkdList s.data)).map jsLower))))).data
          = collapseWsRuns (trimChars (replaceNonAlnumRuns
          ((stripCombining (nfkdList s.data)).map jsLower))) from rfl, hout] at hc
      exact hTg c hc
    · rw [show (String.mk (collapseWsRuns (trimChars (replaceNonAlnumRuns
          ((stripCombining (nfkdList s.data)).map jsLower))))).data
          = collapseWsRuns (trimChars (replaceNonAlnumRuns
          ((stripCombining (nfkdList s.data)).map jsLower))) from rfl, hout]
      exact hT2
    · rw [show (String.mk (collapseWsRuns (trimChars (replaceNonAlnumRuns
          ((stripCombining (nfkdList s.data)).map jsLower))))).data
          = collapseWsRuns (trimChars (replaceNonAlnumRuns
          ((stripCombining (nfkdList s.data)).map jsLower))) from rfl, hout]
      exact trimChars_head_not_ws _
    · rw [show (String.mk (collapseWsRuns (trimChars (replaceNonAlnumRuns
          ((stripCombining (nfkdList s.data)).map jsLower))))).data
          = collapseWsRuns (trimChars (replaceNonAlnumRuns
          ((stripCombining (nfkdList s.data)).map jsLower))) from rfl, hout]
      exact trimChars_last_not_ws _

theorem normalizeKey_idem (s : String) : normalizeKey (normalizeKey s) = normalizeKey s := by
  obtain ⟨hg, h2, hh, hl⟩ := normalizeKey_data_canonical s
  rw [normalizeKey]
  split
  · rename_i he
    rw [(String.isEmpty_iff (normalizeKey s)).mp he]
  · rw [nfkdList_eq_self _ hg, stripCombining_eq_self hg, map_jsLower_eq_self hg,
      replaceNonAlnumRuns_eq_self hg h2, trimChars_eq_self hh hl,
      collapseWsRuns_eq_self hg h2]

/-! ### Generic fold and association-list lemmas -/

theorem foldl_preserves {α β : Type} (P : α → Prop) (f : α → β → α)
    (h : ∀ a b, P a → P (f a b)) : ∀ (l : List β) (a : α), P a → P (l.foldl f a) := by
  intro l
  induction l with
  | nil => intro a ha; exact ha
  | cons b l ih => intro a ha; exact ih (f a b) (h a b ha)

theorem find?_map_over {α : Type} {k : String} {v : α} : ∀ m : List (String × α),
    (m.map (fun e => if e.1 == k then (k, v) else e)).find? (fun e => e.1 == k)
    = if m.any (fun e => e.1 == k) then some (k, v) else none := by
  intro m
  induction m with
  | nil => rfl
  | cons e m ih =>
    by_cases h : e.1 == k
    · simp only [List.map_cons, List.any_cons, h, if_pos, Bool.true_or, if_true]
      rw [List.find?_cons_of_pos]
      simp
    · simp only [List.map_cons, List.any_cons, h, if_neg, Bool.false_eq_true,
        not_false_iff, Bool.false_or]
      rw [List.find?_cons_of_neg]
      · exact ih
      · simp [h]

theorem mapGet_mapSet_self {α : Type} (m : List (String × α)) (k : String) (v : α) :
    mapGet (mapSet m k v) k = some v := by
  rw [mapSet]
  split
  · rw [mapGet, find?_map_over]
    rename_i h
    rw [if_pos h]
    rfl
  · rename_i h
    rw [mapGet, List.find?_append]
    have hnone : m.find? (fun e => e.1 == k) = none := by
      rw [List.find?_eq_none]
      intro e he
      intro hk
      exact h (List.any_eq_true.mpr ⟨e, he, hk⟩)
    rw [hnone]
    simp

theorem find?_map_over_ne {α : Type} {k k' : String} {v : α} (h : k' ≠ k) :
    ∀ m : List (String × α),
    List.find? (fun e => e.1 == k') (m.map (fun e => if e.1 == k then (k, v) else e))
    = List.find? (fun e => e.1 == k') m := by
  intro m
  induction m with
  | nil => rfl
  | cons e m ih =>
    by_cases he : e.1 = k
    · rw [List.map_cons, if_pos (by simpa using he)]
      rw [List.find?_cons, List.find?_cons]
      have h1 : ((k, v).1 == k') = false := by
        simp only [beq_eq_false_iff_ne, ne_eq]
        exact fun hc => h hc.symm
      have h2 : (e.1 == k') = false := by
        rw [he]
        simp only [beq_eq_false_iff_ne, ne_eq]
        exact fun hc => h hc.symm
      rw [h1, h2, ih]
    · rw [List.map_cons, if_neg (by simpa using he)]
      rw [List.find?_cons, List.find?_cons]
      cases hp : (e.1 == k') with
      | true => rfl
      | false => exact ih

theorem mapGet_mapSet_other {α : Type} (m : List (String × α)) (k : String) (v : α)
    (k' : String) (h : k' ≠ k) : mapGet (mapSet m k v) k' = mapGet m k' := by
  rw [mapSet]
  split
  · rw [mapGet, mapGet, find?_map_over_ne h]
  · rw [mapGet, mapGet, List.find?_append]
    cases hf : m.find? (fun e => e.1 == k') with
    | some e => simp
    | none =>
      simp only [Option.none_or]
      rw [List.find?_cons]
      have h1 : ((k, v).1 == k') = false := by
        simp only [beq_eq_false_iff_ne, ne_eq]
        exact fun hc => h hc.symm
      rw [h1]
      rfl

theorem mapGet_mem {α : Type} {m : List (String × α)} {k : String} {v : α}
    (h : mapGet m k = some v) : ∃ e ∈ m, e.2 = v := by
  rw [mapGet] at h
  cases hf : m.find? (fun e => e.1 == k) with
  | none => rw [hf] at h; simp at h
  | some e =>
    rw [hf] at h
    simp at h
    exact ⟨e, List.mem_of_find?_eq_some hf, h⟩

theorem mapSet_values_pred {α : Type} (P : α → Prop) (m : List (String × α))
    (k : String) (v : α) (hm : ∀ e ∈ m, P e.2) (hv : P v) :
    ∀ e ∈ mapSet m k v, P e.2 := by
  rw [mapSet]
  split
  · intro e he
    obtain ⟨a, ha, rfl⟩ := List.mem_map.1 he
    split
    · exact hv
    · exact hm a ha
  · intro e he
    rcases List.mem_append.1 he with h | h
    · exact hm e h
    · rw [List.mem_singleton.1 h]
      exact hv

theorem mapSet_keys_pred {α : Type} (P : String → Prop) (m : List (String × α))
    (k : String) (v : α) (hm : ∀ e ∈ m, P e.1) (hk : P k) :
    ∀ e ∈ mapSet m k v, P e.1 := by
  rw [mapSet]
  split
  · intro e he
    obtain ⟨a, ha, rfl⟩ := List.mem_map.1 he
    split
    · exact hk
    · exact hm a ha
  · intro e he
    rcases List.mem_append.1 he with h | h
    · exact hm e h
    · rw [List.mem_singleton.1 h]
      exact hk

theorem foldl_preserves_mem {α β : Type} (P : α → Prop) (f : α → β → α) :
    ∀ (l : List β), (∀ a b, b ∈ l → P a → P (f a b)) → ∀ a, P a → P (l.foldl f a) := by
  intro l
  induction l with
  | nil => intro _ a ha; exact ha
  | cons b l ih =>
    intro h a ha
    exact ih (fun a' b' hb' => h a' b' (by simp [hb'])) (f a b) (h a b (by simp) ha)

/-! ### Lemmas about the assignee matcher -/

theorem evaluateAssignee_resolved {n : String} {idx : MemberIndex} {m : PlannerMember}
    (h : findMemberMatches n idx = [m]) :
    evaluateAssignee n idx = ⟨[⟨m, n, "planner-member"⟩], [], false⟩ := by
  simp only [evaluateAssignee, h]

theorem evaluateAssignee_unresolved {n : String} {idx : MemberIndex}
    (h : findMemberMatches n idx = []) :
    evaluateAssignee n idx = ⟨[], [], true⟩ := by
  simp only [evaluateAssignee, h]

theorem evaluateAssignee_ambiguous {n : String} {idx : MemberIndex}
    {m m2 : PlannerMember} {tl : List PlannerMember}
    (h : findMemberMatches n idx = m :: m2 :: tl) :
    evaluateAssignee n idx
      = ⟨[], (m :: m2 :: tl).map (fun x => ⟨x, n, "planner-member"⟩), true⟩ := by
  simp only [evaluateAssignee, h]

theorem evaluateAssignee_needsReview_eq (n : String) (idx : MemberIndex) :
    (evaluateAssignee n idx).needsReview = (evaluateAssignee n idx).users.isEmpty := by
  rcases h : findMemberMatches n idx with _ | ⟨m, _ | ⟨m2, tl⟩⟩
  · rw [evaluateAssignee_unresolved h]; rfl
  · rw [evaluateAssignee_resolved h]; rfl
  · rw [evaluateAssignee_ambiguous h]; rfl

theorem mergeStep_eq (idx : MemberIndex) (acc : MergeAcc) (n : String) :
    mergeStep idx acc n =
      ⟨acc.matchedUsers ++ (evaluateAssignee n idx).users,
       acc.failed ++ (if (evaluateAssignee n idx).users.isEmpty then [n] else []),
       acc.candidates ++ (evaluateAssignee n idx).candidates,
       acc.needsReview || (evaluateAssignee n idx).needsReview⟩ := by
  rw [mergeStep]
  rcases hu : (evaluateAssignee n idx).users with _ | ⟨u, us⟩ <;>
    rcases hc : (evaluateAssignee n idx).candidates with _ | ⟨c, cs⟩ <;>
    simp [hu, hc]

theorem mergeAssignees_go (idx : MemberIndex) : ∀ (names : List String) (acc : MergeAcc),
    names.foldl (mergeStep idx) acc =
      ⟨acc.matchedUsers ++ (names.map (fun n => (evaluateAssignee n idx).users)).flatten,
       acc.failed ++ names.filter (fun n => (evaluateAssignee n idx).users.isEmpty),
       acc.candidates ++ (names.map (fun n => (evaluateAssignee n idx).candidates)).flatten,
       acc.needsReview || names.any (fun n => (evaluateAssignee n idx).needsReview)⟩ := by
  intro names
  induction names with
  | nil => intro acc; simp
  | cons n rest ih =>
    intro acc
    rw [List.foldl_cons, mergeStep_eq, ih]
    rw [List.filter_cons]
    by_cases hp : (evaluateAssignee n idx).users.isEmpty = true <;>
      simp [hp, List.append_assoc, Bool.or_assoc]

theorem mergeAssignees_spec (idx : MemberIndex) (names : List String) :
    mergeAssignees idx names =
      ⟨(names.map (fun n => (evaluateAssignee n idx).users)).flatten,
       names.filter (fun n => (evaluateAssignee n idx).users.isEmpty),
       (names.map (fun n => (evaluateAssignee n idx).candidates)).flatten,
       names.any (fun n => (evaluateAssignee n idx).needsReview)⟩ := by
  rw [mergeAssignees, mergeAssignees_go]
  simp

theorem pushIfNewId_nodup {ms : List PlannerMember} {m : PlannerMember}
    (h : (ms.map (fun x => x.id)).Nodup) :
    ((pushIfNewId ms m).map (fun x => x.id)).Nodup := by
  rw [pushIfNewId]
  split
  · exact h
  · rename_i hany
    rw [List.map_append, List.map_singleton, ← List.concat_eq_append]
    apply List.Nodup.concat
    · intro hmem
      obtain ⟨x, hx, hxid⟩ := List.mem_map.1 hmem
      rw [Bool.not_eq_true] at hany
      have := List.any_eq_false.1 hany x hx
      simp only [beq_iff_eq] at this
      exact this hxid
    · exact h

theorem keyPhaseMatches_nodup (keys : List String) (idx : MemberIndex) :
    ((keyPhaseMatches keys idx).map (fun x => x.id)).Nodup := by
  rw [keyPhaseMatches]
  refine foldl_preserves (fun ms : List PlannerMember => (ms.map (fun x => x.id)).Nodup) _ ?_ keys [] (by simp)
  intro ms key h
  cases mapGet idx.keyMap key with
  | some l =>
    exact foldl_preserves (fun ms : List PlannerMember => (ms.map (fun x => x.id)).Nodup) pushIfNewId
      (fun a b hp => pushIfNewId_nodup hp) l ms h
  | none => exact h

theorem fallbackMatches_nodup (tokens : List String) (idx : MemberIndex)
    (ms0 : List PlannerMember) (h : (ms0.map (fun x => x.id)).Nodup) :
    ((fallbackMatches tokens idx ms0).map (fun x => x.id)).Nodup := by
  rw [fallbackMatches]
  refine foldl_preserves (fun ms : List PlannerMember => (ms.map (fun x => x.id)).Nodup) _ ?_ idx.entries ms0 h
  intro ms e hp
  split
  · exact pushIfNewId_nodup hp
  · exact hp

theorem findMemberMatches_nodup (n : String) (idx : MemberIndex) :
    ((findMemberMatches n idx).map (fun x => x.id)).Nodup := by
  rw [findMemberMatches]
  split
  · exact keyPhaseMatches_nodup _ idx
  · split
    · exact keyPhaseMatches_nodup _ idx
    · exact fallbackMatches_nodup _ idx _ (keyPhaseMatches_nodup _ idx)

/-! ### Emptiness and degradation lemmas -/

theorem jsTrim_ws_empty {s : String} (h : ∀ c ∈ s.data, isWsChar c = true) :
    jsTrim s = "" := by
  rw [jsTrim, trimChars, trimLeft, List.dropWhile_eq_nil_iff.mpr h]
  rfl

theorem generateAssigneeKeys_ws {s : String} (h : ∀ c ∈ s.data, isWsChar c = true) :
    generateAssigneeKeys s = ⟨[], []⟩ := by
  rw [generateAssigneeKeys, jsTrim_ws_empty h]
  rfl

theorem keyPhaseMatches_nil (idx : MemberIndex) : keyPhaseMatches [] idx = [] := rfl

theorem findMemberMatches_of_keys_nil {n : String} {idx : MemberIndex}
    (hk : (generateAssigneeKeys n).keys = []) (ht : (generateAssigneeKeys n).tokens = []) :
    findMemberMatches n idx = [] := by
  simp only [findMemberMatches, hk, ht, keyPhaseMatches_nil]
  simp

theorem keyPhaseMatches_empty_keyMap (keys : List String) (idx : MemberIndex)
    (h : idx.keyMap = []) : keyPhaseMatches keys idx = [] := by
  rw [keyPhaseMatches]
  have hstep : ∀ (ks : List String) (ms : List PlannerMember),
      ks.foldl (fun ms key =>
        match mapGet idx.keyMap key with
        | some membersForKey => membersForKey.foldl pushIfNewId ms
        | none => ms) ms = ms := by
    intro ks
    induction ks with
    | nil => intro ms; rfl
    | cons k ks ih =>
      intro ms
      rw [List.foldl_cons]
      rw [show mapGet idx.keyMap k = none by rw [h]; rfl]
      exact ih ms
  exact hstep keys []

theorem findMemberMatches_empty_index (n : String) :
    findMemberMatches n (buildMemberIndex []) = [] := by
  have hidx : buildMemberIndex ([] : List PlannerMember) = ⟨[], []⟩ := rfl
  rw [findMemberMatches]
  rw [keyPhaseMatches_empty_keyMap _ _ (by rw [hidx])]
  simp only [List.length_nil, lt_irrefl, if_false]
  split
  · rfl
  · rw [fallbackMatches, hidx]
    rfl

theorem evaluateAssignee_empty_roster (n : String) :
    evaluateAssignee n (buildMemberIndex []) = ⟨[], [], true⟩ :=
  evaluateAssignee_unresolved (findMemberMatches_empty_index n)

/-! ### Lemmas about the bucket matcher -/

theorem bucketScore_nonneg (a b : String) : 0 ≤ bucketScore a b := by
  rw [bucketScore]
  apply div_nonneg <;> exact Nat.cast_nonneg _

theorem fuzzyStep_of_qual_accept {bucketName : String} {acc : Option (PlannerBucket × Bool) × ℚ}
    {entry : String × PlannerBucket} (hq : bucketQualifies bucketName entry.1)
    (ha : acc.2 < bucketScore bucketName entry.1 ∧ (1 : ℚ)/2 < bucketScore bucketName entry.1) :
    fuzzyStep bucketName acc entry = (some (entry.2, false), bucketScore bucketName entry.1) := by
  have hq' : (containsSub (jsLowerStr bucketName).data entry.1.data
      || containsSub entry.1.data (jsLowerStr bucketName).data) = true := hq
  simp only [fuzzyStep]
  rw [if_pos hq', if_pos ha]

theorem fuzzyStep_of_qual_reject {bucketName : String} {acc : Option (PlannerBucket × Bool) × ℚ}
    {entry : String × PlannerBucket} (hq : bucketQualifies bucketName entry.1)
    (ha : ¬(acc.2 < bucketScore bucketName entry.1 ∧ (1 : ℚ)/2 < bucketScore bucketName entry.1)) :
    fuzzyStep bucketName acc entry = acc := by
  have hq' : (containsSub (jsLowerStr bucketName).data entry.1.data
      || containsSub entry.1.data (jsLowerStr bucketName).data) = true := hq
  simp only [fuzzyStep]
  rw [if_pos hq', if_neg ha]

theorem fuzzyStep_of_not_qual {bucketName : String} {acc : Option (PlannerBucket × Bool) × ℚ}
    {entry : String × PlannerBucket} (hq : ¬bucketQualifies bucketName entry.1) :
    fuzzyStep bucketName acc entry = acc := by
  have hq' : (containsSub (jsLowerStr bucketName).data entry.1.data
      || containsSub entry.1.data (jsLowerStr bucketName).data) ≠ true := hq
  simp only [fuzzyStep]
  rw [if_neg hq']

theorem fuzzy_fold_inv (bucketName : String) :
    ∀ (l : List (String × PlannerBucket)) (acc : Option (PlannerBucket × Bool) × ℚ),
    (acc.1 = none → acc.2 = 0) →
    (∀ bm, acc.1 = some bm → bm.2 = false ∧ (1 : ℚ)/2 < acc.2) →
    acc.2 ≤ (l.foldl (fuzzyStep bucketName) acc).2
    ∧ ((l.foldl (fuzzyStep bucketName) acc).1 = none →
        acc.1 = none ∧ (l.foldl (fuzzyStep bucketName) acc).2 = acc.2
        ∧ ∀ e ∈ l, bucketQualifies bucketName e.1 →
            bucketScore bucketName e.1 ≤ (1 : ℚ)/2)
    ∧ (∀ bm, (l.foldl (fuzzyStep bucketName) acc).1 = some bm →
        bm.2 = false ∧ (1 : ℚ)/2 < (l.foldl (fuzzyStep bucketName) acc).2
        ∧ ((acc.1 = some bm ∧ (l.foldl (fuzzyStep bucketName) acc).2 = acc.2)
            ∨ ∃ e ∈ l, bucketQualifies bucketName e.1 ∧ bm.1 = e.2
                ∧ bucketScore bucketName e.1 = (l.foldl (fuzzyStep bucketName) acc).2)
        ∧ ∀ e ∈ l, bucketQualifies bucketName e.1 →
            bucketScore bucketName e.1 ≤ (l.foldl (fuzzyStep bucketName) acc).2) := by
  intro l
  induction l with
  | nil =>
    intro acc h1 h2
    refine ⟨le_refl _, fun _ => ⟨by assumption, rfl, by simp⟩, fun bm hbm => ?_⟩
    obtain ⟨hf, hsc⟩ := h2 bm hbm
    exact ⟨hf, hsc, Or.inl ⟨hbm, rfl⟩, by simp⟩
  | cons e rest ih =>
    intro acc h1 h2
    rw [List.foldl_cons]
    by_cases hq : bucketQualifies bucketName e.1
    · by_cases ha : acc.2 < bucketScore bucketName e.1 ∧ (1 : ℚ)/2 < bucketScore bucketName e.1
      · -- accepted: the accumulator becomes the candidate of e
        rw [fuzzyStep_of_qual_accept hq ha]
        obtain ⟨ihM, ihN, ihS⟩ := ih (some (e.2, false), bucketScore bucketName e.1)
          (by intro hc; exact absurd hc (by simp))
          (by
            intro bm hbm
            simp only [Option.some.injEq] at hbm
            subst hbm
            exact ⟨rfl, ha.2⟩)
        refine ⟨le_trans (le_of_lt ha.1) ihM, ?_, ?_⟩
        · intro hnone
          obtain ⟨hcontra, _, _⟩ := ihN hnone
          exact absurd hcontra (by simp)
        · intro bm hbm
          obtain ⟨hf, hsc, hprov, hmax⟩ := ihS bm hbm
          refine ⟨hf, hsc, ?_, ?_⟩
          · rcases hprov with ⟨hacc, hsc2⟩ | ⟨e', he', hq', hb', hs'⟩
            · simp only [Option.some.injEq] at hacc
              subst hacc
              exact Or.inr ⟨e, by simp, hq, rfl, hsc2.symm⟩
            · exact Or.inr ⟨e', by simp [he'], hq', hb', hs'⟩
          · intro e' he' hq'
            rcases List.mem_cons.1 he' with rfl | he'
            · exact ihM
            · exact hmax e' he' hq'
      · -- rejected: the accumulator is unchanged
        rw [fuzzyStep_of_qual_reject hq ha]
        obtain ⟨ihM, ihN, ihS⟩ := ih acc h1 h2
        refine ⟨ihM, ?_, ?_⟩
        · intro hnone
          obtain ⟨haccn, hsc, hrest⟩ := ihN hnone
          refine ⟨haccn, hsc, ?_⟩
          intro e' he' hq'
          rcases List.mem_cons.1 he' with rfl | he'
          · -- score of e is at most 1/2: otherwise it would have been accepted
            by_contra hgt
            push_neg at hgt
            exact ha ⟨by rw [h1 haccn]; exact lt_of_lt_of_le (by norm_num) (le_of_lt hgt), hgt⟩
          · exact hrest e' he' hq'
        · intro bm hbm
          obtain ⟨hf, hsc, hprov, hmax⟩ := ihS bm hbm
          refine ⟨hf, hsc, ?_, ?_⟩
          · rcases hprov with h | ⟨e', he', hq', hb', hs'⟩
            · exact Or.inl h
            · exact Or.inr ⟨e', by simp [he'], hq', hb', hs'⟩
          · intro e' he' hq'
            rcases List.mem_cons.1 he' with rfl | he'
            · rcases not_and_or.1 ha with hle | hle
              · push_neg at hle
                exact le_trans hle ihM
              · push_neg at hle
                exact le_trans hle (le_of_lt hsc)
            · exact hmax e' he' hq'
    · rw [fuzzyStep_of_not_qual hq]
      obtain ⟨ihM, ihN, ihS⟩ := ih acc h1 h2
      refine ⟨ihM, ?_, ?_⟩
      · intro hnone
        obtain ⟨haccn, hsc, hrest⟩ := ihN hnone
        refine ⟨haccn, hsc, ?_⟩
        intro e' he' hq'
        rcases List.mem_cons.1 he' with rfl | he'
        · exact absurd hq' hq
        · exact hrest e' he' hq'
      · intro bm hbm
        obtain ⟨hf, hsc, hprov, hmax⟩ := ihS bm hbm
        refine ⟨hf, hsc, ?_, ?_⟩
        · rcases hprov with h | ⟨e', he', hq', hb', hs'⟩
          · exact Or.inl h
          · exact Or.inr ⟨e', by simp [he'], hq', hb', hs'⟩
        · intro e' he' hq'
          rcases List.mem_cons.1 he' with rfl | he'
          · exact absurd hq' hq
          · exact hmax e' he' hq'

theorem fuzzyBestMatch_spec (bucketName : String) (bl : List (String × PlannerBucket)) :
    ((fuzzyBestMatch bucketName bl).1 = none →
      ∀ e ∈ bl, bucketQualifies bucketName e.1 → bucketScore bucketName e.1 ≤ (1 : ℚ)/2)
    ∧ (∀ b ex, (fuzzyBestMatch bucketName bl).1 = some (b, ex) →
        ex = false ∧ (1 : ℚ)/2 < (fuzzyBestMatch bucketName bl).2
        ∧ (∃ e ∈ bl, bucketQualifies bucketName e.1 ∧ b = e.2
            ∧ bucketScore bucketName e.1 = (fuzzyBestMatch bucketName bl).2)
        ∧ ∀ e ∈ bl, bucketQualifies bucketName e.1 →
            bucketScore bucketName e.1 ≤ (fuzzyBestMatch bucketName bl).2) := by
  obtain ⟨hM, hN, hS⟩ := fuzzy_fold_inv bucketName bl (none, 0)
    (fun _ => rfl) (by intro bm hbm; exact absurd hbm (by simp))
  constructor
  · intro hnone
    exact (hN hnone).2.2
  · intro b ex hbm
    obtain ⟨hf, hsc, hprov, hmax⟩ := hS (b, ex) hbm
    refine ⟨hf, hsc, ?_, hmax⟩
    rcases hprov with ⟨habs, _⟩ | ⟨e, he, hq, hb, hs⟩
    · exact absurd habs (by simp)
    · exact ⟨e, he, hq, hb, hs⟩

theorem buildBucketLookup_go (k : String) : ∀ (bs : List PlannerBucket)
    (m : List (String × PlannerBucket)),
    mapGet (bs.foldl (fun m bucket => mapSet m (jsLowerStr bucket.name) bucket) m) k
    = ((bs.filter (fun b => jsLowerStr b.name == k)).getLast?).or (mapGet m k) := by
  intro bs
  induction bs with
  | nil => intro m; simp
  | cons b bs ih =>
    intro m
    rw [List.foldl_cons, ih, List.filter_cons]
    by_cases hb : (jsLowerStr b.name == k) = true
    · rw [if_pos hb]
      have hbk : jsLowerStr b.name = k := by simpa using hb
      cases hfb : bs.filter (fun b => jsLowerStr b.name == k) with
      | nil =>
        rw [hbk, mapGet_mapSet_self]
        rfl
      | cons x xs =>
        rw [List.getLast?_cons_cons]
        cases hy : (x :: xs).getLast? with
        | none => exact absurd (List.getLast?_eq_none_iff.1 hy) (by simp)
        | some y => rfl
    · rw [if_neg hb]
      rw [mapGet_mapSet_other]
      intro hc
      rw [← hc] at hb
      simp at hb

theorem buildBucketLookup_get (bs : List PlannerBucket) (k : String) :
    mapGet (buildBucketLookup bs) k
    = (bs.filter (fun b => jsLowerStr b.name == k)).getLast? := by
  rw [buildBucketLookup, buildBucketLookup_go]
  simp [mapGet]

theorem buildBucketMapping_go (bl : List (String × PlannerBucket)) (raw : String) :
    ∀ (names : List String) (m : List (String × Option (PlannerBucket × Bool))),
    mapGet (names.foldl
      (fun m bucketName => mapSet m bucketName (bucketOutcome bl bucketName)) m) raw
    = if raw ∈ names then some (bucketOutcome bl raw) else mapGet m raw := by
  intro names
  induction names with
  | nil => intro m; simp
  | cons n rest ih =>
    intro m
    rw [List.foldl_cons, ih]
    by_cases hr : raw ∈ rest
    · rw [if_pos hr, if_pos (by simp [hr])]
    · rw [if_neg hr]
      by_cases hn : raw = n
      · subst hn
        rw [mapGet_mapSet_self, if_pos (by simp)]
      · rw [mapGet_mapSet_other _ _ _ _ hn, if_neg (by simp [hn, hr])]

theorem buildBucketMapping_get (names : List String) (bl : List (String × PlannerBucket))
    (raw : String) :
    mapGet (buildBucketMapping names bl) raw
    = if raw ∈ names then some (bucketOutcome bl raw) else none := by
  rw [buildBucketMapping, buildBucketMapping_go]
  split <;> simp [mapGet]

theorem bucketOutcome_empty (n : String) : bucketOutcome [] n = none := rfl

theorem buildBucketMapping_empty_values (names : List String) :
    ∀ e ∈ buildBucketMapping names [], e.2 = none := by
  rw [buildBucketMapping]
  refine foldl_preserves_mem
    (fun m : List (String × Option (PlannerBucket × Bool)) => ∀ e ∈ m, e.2 = none)
    _ names ?_ [] (by simp)
  intro m n _ hm
  exact mapSet_values_pred (fun v => v = none) m n (bucketOutcome [] n) hm
    (bucketOutcome_empty n)

theorem applyBucketInfo_all_none {mapping : List (String × Option (PlannerBucket × Bool))}
    (hall : ∀ e ∈ mapping, e.2 = none) (t : ProcessedTask) :
    applyBucketInfo mapping t =
      match t.bucketName with
      | some bn => if bn.isEmpty then t else { t with bucketLookupFailed := some true }
      | none => t := by
  rcases hbn : t.bucketName with _ | bn
  · simp only [applyBucketInfo, hbn]
  · simp only [applyBucketInfo, hbn]
    by_cases hbe : bn.isEmpty = true
    · rw [if_pos hbe, if_pos hbe]
    · rw [if_neg hbe, if_neg hbe]
      cases hget : mapGet mapping bn with
      | none => simp only [hget]
      | some v =>
        obtain ⟨e, he, hev⟩ := mapGet_mem hget
        have hv : v = none := by rw [← hev]; exact hall e he
        subst hv
        simp only [hget]

/-! ### Frame lemmas -/

theorem processAssigneeTask_toParsedTask (idx : MemberIndex) (task : ParsedTask) :
    (processAssigneeTask idx task).toParsedTask = task := by
  rw [processAssigneeTask]
  split
  · rfl
  · split
    · split
      · rfl
      · dsimp only
        split <;> rfl
    · rfl

theorem processAssigneeTask_bucket_none (idx : MemberIndex) (task : ParsedTask) :
    (processAssigneeTask idx task).bucketInfo = none
    ∧ (processAssigneeTask idx task).bucketLookupFailed = none := by
  rw [processAssigneeTask]
  split
  · exact ⟨rfl, rfl⟩
  · split
    · split
      · exact ⟨rfl, rfl⟩
      · dsimp only
        split <;> exact ⟨rfl, rfl⟩
    · exact ⟨rfl, rfl⟩

theorem applyBucketInfo_erase (mapping : List (String × Option (PlannerBucket × Bool)))
    (t : ProcessedTask) :
    eraseBucketEnrichment (applyBucketInfo mapping t) = eraseBucketEnrichment t := by
  rw [applyBucketInfo]
  split
  · split
    · rfl
    · split <;> rfl
  · rfl

/-! ### Fallback membership lemmas -/

theorem pushIfNewId_mem_id (ms : List PlannerMember) (m : PlannerMember) (i : String) :
    (∃ m' ∈ pushIfNewId ms m, m'.id = i) ↔ (∃ m' ∈ ms, m'.id = i) ∨ m.id = i := by
  rw [pushIfNewId]
  split
  · rename_i hany
    constructor
    · exact Or.inl
    · rintro (h | h)
      · exact h
      · obtain ⟨e, he, heid⟩ := List.any_eq_true.1 hany
        exact ⟨e, he, by rw [(by simpa using heid : e.id = m.id), h]⟩
  · simp [List.mem_append, or_and_right, exists_or]

theorem fallbackMatches_mem_id (tokens : List String) (i : String) :
    ∀ (entries : List (PlannerMember × String)) (km : List (String × List PlannerMember))
      (ms0 : List PlannerMember),
    ((∃ m' ∈ fallbackMatches tokens ⟨km, entries⟩ ms0, m'.id = i) ↔
      (∃ m' ∈ ms0, m'.id = i)
      ∨ ∃ e ∈ entries, e.1.id = i
          ∧ (tokens.all (fun t => containsSub e.2.data t.data)) = true) := by
  intro entries
  induction entries with
  | nil =>
    intro km ms0
    rw [fallbackMatches]
    simp
  | cons e rest ih =>
    intro km ms0
    rw [fallbackMatches] at *
    simp only [List.foldl_cons]
    by_cases hq : (tokens.all (fun t => containsSub e.2.data t.data)) = true
    · rw [if_pos hq]
      rw [show List.foldl _ (pushIfNewId ms0 e.1) rest
          = fallbackMatches tokens ⟨km, rest⟩ (pushIfNewId ms0 e.1) from rfl] at *
      rw [ih km (pushIfNewId ms0 e.1), pushIfNewId_mem_id]
      constructor
      · rintro ((h | h) | h)
        · exact Or.inl h
        · exact Or.inr ⟨e, by simp, h, hq⟩
        · obtain ⟨e', he', hi, hall⟩ := h
          exact Or.inr ⟨e', by simp [he'], hi, hall⟩
      · rintro (h | ⟨e', he', hi, hall⟩)
        · exact Or.inl (Or.inl h)
        · rcases List.mem_cons.1 he' with rfl | he'
          · exact Or.inl (Or.inr hi)
          · exact Or.inr ⟨e', he', hi, hall⟩
    · rw [if_neg hq]
      rw [show List.foldl _ ms0 rest = fallbackMatches tokens ⟨km, rest⟩ ms0 from rfl]
      rw [ih km ms0]
      constructor
      · rintro (h | ⟨e', he', hi, hall⟩)
        · exact Or.inl h
        · exact Or.inr ⟨e', by simp [he'], hi, hall⟩
      · rintro (h | ⟨e', he', hi, hall⟩)
        · exact Or.inl h
        · rcases List.mem_cons.1 he' with rfl | he'
          · exact absurd hall hq
          · exact Or.inr ⟨e', he', hi, hall⟩

theorem findMemberMatches_fallback {n : String} {idx : MemberIndex}
    (hk : keyPhaseMatches (generateAssigneeKeys n).keys idx = [])
    (ht : (generateAssigneeKeys n).tokens ≠ []) :
    findMemberMatches n idx
      = fallbackMatches (generateAssigneeKeys n).tokens idx [] := by
  simp only [findMemberMatches, hk]
  rw [if_neg (by simp), if_neg (by simpa using fun h => ht (List.length_eq_zero.1 h))]

theorem generateMemberKeys_ne_empty (m : PlannerMember) :
    ∀ k ∈ generateMemberKeys m, k ≠ "" := by
  intro k hk
  simp only [generateMemberKeys] at hk
  have hp := List.of_mem_filter hk
  intro he
  subst he
  simp at hp

theorem buildMemberIndex_keys_ne (members : List PlannerMember) :
    ∀ e ∈ (buildMemberIndex members).keyMap, e.1 ≠ "" := by
  rw [buildMemberIndex]
  refine foldl_preserves (fun idx : MemberIndex => ∀ e ∈ idx.keyMap, e.1 ≠ "")
    indexInsertMember ?_ members ⟨[], []⟩ (by simp)
  intro idx member hidx
  rw [indexInsertMember]
  dsimp only
  refine foldl_preserves_mem
    (fun km : List (String × List PlannerMember) => ∀ e ∈ km, e.1 ≠ "")
    _ (generateMemberKeys member) ?_ idx.keyMap hidx
  intro km key hkey hkm
  exact mapSet_keys_pred (fun k => k ≠ "") km key _ hkm
    (generateMemberKeys_ne_empty member key hkey)

theorem lookupAssignees_toParsedTask (tasks : List ParsedTask)
    (members : List PlannerMember) :
    (lookupAssignees tasks members).map (fun t => t.toParsedTask) = tasks := by
  rw [lookupAssignees, List.map_map]
  simp [Function.comp_def, processAssigneeTask_toParsedTask]

theorem lookupBuckets_erase (tasks : List ProcessedTask) (buckets : List PlannerBucket) :
    (lookupBuckets tasks buckets).map eraseBucketEnrichment
      = tasks.map eraseBucketEnrichment := by
  rw [lookupBuckets, List.map_map]
  simp [Function.comp_def, applyBucketInfo_erase]

/-! ### Claim theorems -/

/-- C1, as amended: when the generated keys of a raw assignee name find
no member in the key map and the token list is non-empty, the matcher
falls back to scanning the index entries, and a member id occurs in the
result exactly when some entry with that id has every token as a
substring of its search text; when exactly one member results, the
outcome is Resolved with that member (not Ambiguous), and when none
results the outcome is Unresolved. -/
theorem c1_token_fallback (name : String) (idx : MemberIndex)
    (hk : keyPhaseMatches (generateAssigneeKeys name).keys idx = [])
    (ht : (generateAssigneeKeys name).tokens ≠ []) :
    findMemberMatches name idx
      = fallbackMatches (generateAssigneeKeys name).tokens idx []
    ∧ (∀ i : String,
        ((∃ m' ∈ findMemberMatches name idx, m'.id = i) ↔
          ∃ e ∈ idx.entries, e.1.id = i
            ∧ ((generateAssigneeKeys name).tokens.all
                (fun t => containsSub e.2.data t.data)) = true))
    ∧ (∀ m : PlannerMember, findMemberMatches name idx = [m] →
        evaluateAssignee name idx = ⟨[⟨m, name, "planner-member"⟩], [], false⟩)
    ∧ (findMemberMatches name idx = [] → evaluateAssignee name idx = ⟨[], [], true⟩) := by
  have h1 : findMemberMatches name idx
      = fallbackMatches (generateAssigneeKeys name).tokens idx [] :=
    findMemberMatches_fallback hk ht
  refine ⟨h1, ?_, fun m hm => evaluateAssignee_resolved hm,
    fun hm => evaluateAssignee_unresolved hm⟩
  intro i
  rw [h1]
  obtain ⟨km, es⟩ := idx
  rw [fallbackMatches_mem_id (generateAssigneeKeys name).tokens i es km []]
  simp

/-- C1 counterexample: for the raw name Ann against the one-member
roster, the keys find nothing, the tokens are non-empty, the fallback
finds exactly one qualifying member, and the outcome is Resolved with
empty candidates and no review flag, not Ambiguous as claimed. -/
theorem c1_counterexample :
    keyPhaseMatches (generateAssigneeKeys "Ann").keys annIdx = []
    ∧ (generateAssigneeKeys "Ann").tokens ≠ []
    ∧ findMemberMatches "Ann" annIdx = [annLee]
    ∧ evaluateAssignee "Ann" annIdx
        = ⟨[⟨annLee, "Ann", "planner-member"⟩], [], false⟩ := by
  decide

/-- C1 witness: the amended theorem applied at the raw name Ann against
the one-member roster. -/
theorem c1_token_fallback_witness :
    findMemberMatches "Ann" annIdx
      = fallbackMatches (generateAssigneeKeys "Ann").tokens annIdx []
    ∧ evaluateAssignee "Ann" annIdx
        = ⟨[⟨annLee, "Ann", "planner-member"⟩], [], false⟩ := by
  have h := c1_token_fallback "Ann" annIdx (by decide) (by decide)
  exact ⟨h.1, h.2.2.1 annLee (by decide)⟩

/-- C2, as amended: for a task naming multiple assignees, each sub-name
is matched independently and the merged record has matchedMembers the
concatenation of the Resolved users, failedNames exactly the sub-names
whose individual outcome was not Resolved (Ambiguous as well as
Unresolved), candidates the concatenation of the Ambiguous candidate
sets, and needsReview set exactly when some sub-name was not
Resolved. -/
theorem c2_merge (members : List PlannerMember) (task : ParsedTask) (names : List String)
    (h : task.assignees = some names) (hne : names ≠ []) :
    (processAssigneeTask (buildMemberIndex members) task).assigneeUsers
      = (if 0 < ((names.map
            (fun n => (evaluateAssignee n (buildMemberIndex members)).users)).flatten).length
         then some ((names.map
            (fun n => (evaluateAssignee n (buildMemberIndex members)).users)).flatten)
         else none)
    ∧ (processAssigneeTask (buildMemberIndex members) task).assigneeLookupFailedList
      = (if 0 < (names.filter
            (fun n => (evaluateAssignee n (buildMemberIndex members)).users.isEmpty)).length
         then some (names.filter
            (fun n => (evaluateAssignee n (buildMemberIndex members)).users.isEmpty))
         else none)
    ∧ (processAssigneeTask (buildMemberIndex members) task).assigneeCandidates
      = (if 0 < ((names.map
            (fun n => (evaluateAssignee n (buildMemberIndex members)).candidates)).flatten).length
         then some ((names.map
            (fun n => (evaluateAssignee n (buildMemberIndex members)).candidates)).flatten)
         else none)
    ∧ (processAssigneeTask (buildMemberIndex members) task).assigneeNeedsReview
      = (if names.any (fun n => (evaluateAssignee n (buildMemberIndex members)).needsReview)
         then some true else none)
    ∧ ((names.any (fun n => (evaluateAssignee n (buildMemberIndex members)).needsReview)) = true
        ↔ ∃ n ∈ names, (evaluateAssignee n (buildMemberIndex members)).users = []) := by
  obtain ⟨a, rest, rfl⟩ : ∃ a rest, names = a :: rest := by
    cases names with
    | nil => exact absurd rfl hne
    | cons a rest => exact ⟨a, rest, rfl⟩
  refine ⟨?_, ?_, ?_, ?_, ?_⟩
  · simp only [processAssigneeTask, h, mergeAssignees_spec]
  · simp only [processAssigneeTask, h, mergeAssignees_spec]
  · simp only [processAssigneeTask, h, mergeAssignees_spec]
  · simp only [processAssigneeTask, h, mergeAssignees_spec]
  · rw [List.any_eq_true]
    constructor
    · rintro ⟨n, hn, hr⟩
      rw [evaluateAssignee_needsReview_eq] at hr
      exact ⟨n, hn, List.isEmpty_iff.1 hr⟩
    · rintro ⟨n, hn, hr⟩
      refine ⟨n, hn, ?_⟩
      rw [evaluateAssignee_needsReview_eq, hr]
      rfl

/-- C2 counterexample: with two same-named members, the single sub-name
Ann Lee is Ambiguous (non-empty candidates), not Unresolved, yet it is
recorded in the failed-names list, contradicting the claim that
failedNames holds exactly the Unresolved sub-names. -/
theorem c2_counterexample :
    (evaluateAssignee "Ann Lee" ambIdx).users = []
    ∧ (evaluateAssignee "Ann Lee" ambIdx).candidates ≠ []
    ∧ (processAssigneeTask ambIdx ambTask).assigneeLookupFailedList = some ["Ann Lee"] := by
  decide

/-- C2 witness: the amended theorem applied to the task naming Ann Lee
and Bob Kim against the one-member roster. -/
theorem c2_merge_witness :
    (processAssigneeTask (buildMemberIndex [annLee]) multiTask).assigneeLookupFailedList
      = some ["Bob Kim"]
    ∧ (processAssigneeTask (buildMemberIndex [annLee]) multiTask).assigneeNeedsReview
      = some true := by
  have h := c2_merge [annLee] multiTask ["Ann Lee", "Bob Kim"] (by decide) (by decide)
  exact ⟨h.2.1.trans (by decide), h.2.2.2.1.trans (by decide)⟩

unseal Rat.mul Rat.inv in
/-- C3: for a raw bucket label with no case-insensitive exact match the
stored outcome is the fuzzy result; the fuzzy result is null only when
every containment-qualifying candidate scores at most one half, and a
returned candidate is tagged non-exact, scores strictly above one half,
comes from a qualifying entry whose score equals the best score, and
its score is maximal among all qualifiers; the raw label Dev against
existing Development scores 3/11 and fails, while Design Team against
Design scores 6/11 and is returned as a fuzzy match. -/
theorem c3_bucket_fuzzy (raw : String) (bl : List (String × PlannerBucket))
    (hexact : mapGet bl (jsLowerStr raw) = none) :
    bucketOutcome bl raw = (fuzzyBestMatch raw bl).1
    ∧ ((fuzzyBestMatch raw bl).1 = none →
        ∀ e ∈ bl, bucketQualifies raw e.1 → bucketScore raw e.1 ≤ (1 : ℚ)/2)
    ∧ (∀ b ex, (fuzzyBestMatch raw bl).1 = some (b, ex) →
        ex = false ∧ (1 : ℚ)/2 < (fuzzyBestMatch raw bl).2
        ∧ (∃ e ∈ bl, bucketQualifies raw e.1 ∧ b = e.2
            ∧ bucketScore raw e.1 = (fuzzyBestMatch raw bl).2)
        ∧ ∀ e ∈ bl, bucketQualifies raw e.1 →
            bucketScore raw e.1 ≤ (fuzzyBestMatch raw bl).2)
    ∧ bucketScore "Dev" "development" = 3/11
    ∧ lookupBuckets [bucketTask "Dev"] [developmentBucket]
        = [{ bucketTask "Dev" with bucketLookupFailed := some true }]
    ∧ fuzzyBestMatch "Design Team" (buildBucketLookup [designBucket])
        = (some (designBucket, false), 6/11)
    ∧ lookupBuckets [bucketTask "Design Team"] [designBucket]
        = [{ bucketTask "Design Team" with
              bucketInfo := some ⟨"b2", "Design", "Design Team", false⟩ }] := by
  refine ⟨?_, (fuzzyBestMatch_spec raw bl).1, ?_, by decide, by decide, by decide, by decide⟩
  · simp only [bucketOutcome, hexact]
  · intro b ex hbm
    exact (fuzzyBestMatch_spec raw bl).2 b ex hbm

unseal Rat.mul Rat.inv in
/-- C3 witness: the theorem applied to the raw label Design Team against
the lookup record over the Design bucket. -/
theorem c3_bucket_fuzzy_witness :
    bucketOutcome (buildBucketLookup [designBucket]) "Design Team"
      = (fuzzyBestMatch "Design Team" (buildBucketLookup [designBucket])).1
    ∧ (1 : ℚ)/2 < (fuzzyBestMatch "Design Team" (buildBucketLookup [designBucket])).2 := by
  have h := c3_bucket_fuzzy "Design Team" (buildBucketLookup [designBucket]) (by decide)
  exact ⟨h.1, (h.2.2.1 designBucket false (by decide)).2.1⟩

/-- C4: with a roster holding the one member whose display name
normalizes to ann lee, both the raw string Ann Lee and the
comma-swapped Lee, Ann resolve to exactly that member; the display-name
key and the swapped first/last key are both ann lee. -/
theorem c4_exact_and_swapped :
    evaluateAssignee "Ann Lee" annIdx
      = ⟨[⟨annLee, "Ann Lee", "planner-member"⟩], [], false⟩
    ∧ evaluateAssignee "Lee, Ann" annIdx
      = ⟨[⟨annLee, "Lee, Ann", "planner-member"⟩], [], false⟩
    ∧ normalizeKey annLee.displayName = "ann lee"
    ∧ "ann lee" ∈ generateMemberKeys annLee
    ∧ "ann lee" ∈ (generateAssigneeKeys "Ann Lee").keys
    ∧ "ann lee" ∈ (generateAssigneeKeys "Lee, Ann").keys := by
  decide

/-- C5: two distinct same-named members make the raw name Ann Lee
resolve to Ambiguous with both as candidates, and in every outcome the
member and candidate lists are deduplicated by id. -/
theorem c5_ambiguity_and_dedup :
    evaluateAssignee "Ann Lee" ambIdx
      = ⟨[], [⟨annLee, "Ann Lee", "planner-member"⟩,
              ⟨annLee2, "Ann Lee", "planner-member"⟩], true⟩
    ∧ annLee.id ≠ annLee2.id
    ∧ (∀ (name : String) (idx : MemberIndex),
        ((findMemberMatches name idx).map (fun m => m.id)).Nodup
        ∧ ((evaluateAssignee name idx).users.map (fun u => u.member.id)).Nodup
        ∧ ((evaluateAssignee name idx).candidates.map (fun u => u.member.id)).Nodup) := by
  refine ⟨by decide, by decide, ?_⟩
  intro name idx
  refine ⟨findMemberMatches_nodup name idx, ?_, ?_⟩
  · rcases hm : findMemberMatches name idx with _ | ⟨m, _ | ⟨m2, tl⟩⟩
    · rw [evaluateAssignee_unresolved hm]; simp
    · rw [evaluateAssignee_resolved hm]; simp
    · rw [evaluateAssignee_ambiguous hm]; simp
  · rcases hm : findMemberMatches name idx with _ | ⟨m, _ | ⟨m2, tl⟩⟩
    · rw [evaluateAssignee_unresolved hm]; simp
    · rw [evaluateAssignee_resolved hm]; simp
    · rw [evaluateAssignee_ambiguous hm]
      have : (((m :: m2 :: tl).map
          (fun x => (⟨x, name, "planner-member"⟩ : AssignedUser))).map
            (fun u => u.member.id))
          = (m :: m2 :: tl).map (fun x => x.id) := by
        rw [List.map_map]
        rfl
      dsimp only
      rw [this, ← hm]
      exact findMemberMatches_nodup name idx

/-- C6: the bucket matcher builds a case-insensitive name-to-bucket
record in which the last snapshot entry with a given lowercased name
wins; a raw label equal case-insensitively to an existing bucket name
maps to that bucket tagged exact, and the concrete PLANNING lookup
yields bucketInfo with exactMatch true. -/
theorem c6_bucket_exact :
    (∀ (bs : List PlannerBucket) (k : String),
        mapGet (buildBucketLookup bs) k
          = (bs.filter (fun b => jsLowerStr b.name == k)).getLast?)
    ∧ mapGet (buildBucketLookup [designBucket, { id := "b4", name := "DESIGN" }]) "design"
        = some { id := "b4", name := "DESIGN" }
    ∧ lookupBuckets [bucketTask "PLANNING"] [planningBucket]
        = [{ bucketTask "PLANNING" with
              bucketInfo := some ⟨"b3", "Planning", "PLANNING", true⟩ }]
    ∧ (∀ (names : List String) (bl : List (String × PlannerBucket)) (raw : String)
          (b : PlannerBucket), raw ∈ names → mapGet bl (jsLowerStr raw) = some b →
        mapGet (buildBucketMapping names bl) raw = some (some (b, true))) := by
  refine ⟨buildBucketLookup_get, by decide, by decide, ?_⟩
  intro names bl raw b hmem hex
  rw [buildBucketMapping_get, if_pos hmem]
  simp only [bucketOutcome, hex]

/-- C6 witness: the exact-match mapping conjunct applied at the
PLANNING label over the Planning snapshot. -/
theorem c6_bucket_exact_witness :
    mapGet (buildBucketMapping ["PLANNING"] (buildBucketLookup [planningBucket])) "PLANNING"
      = some (some (planningBucket, true)) :=
  c6_bucket_exact.2.2.2 ["PLANNING"] (buildBucketLookup [planningBucket]) "PLANNING"
    planningBucket (by decide) (by decide)

/-- C7: the normalizer is idempotent on every string, and the
diacritic- and case-folded forms of the two José Pérez spellings
normalize to the same key. -/
theorem c7_normalizer_idempotent :
    (∀ s : String, normalizeKey (normalizeKey s) = normalizeKey s)
    ∧ normalizeKey "José   Pérez" = normalizeKey "JOSE  PEREZ" :=
  ⟨normalizeKey_idem, by decide⟩

/-- C8: an all-whitespace raw assignee name generates no keys and no
tokens and always evaluates to Unresolved, and for every roster the
empty string is never a key of the built key map. -/
theorem c8_empty_never_matches :
    (∀ s : String, (∀ c ∈ s.data, isWsChar c = true) →
      generateAssigneeKeys s = ⟨[], []⟩
      ∧ ∀ idx : MemberIndex, evaluateAssignee s idx = ⟨[], [], true⟩)
    ∧ (∀ members : List PlannerMember, ∀ e ∈ (buildMemberIndex members).keyMap, e.1 ≠ "") := by
  refine ⟨?_, buildMemberIndex_keys_ne⟩
  intro s hs
  have hg := generateAssigneeKeys_ws hs
  refine ⟨hg, ?_⟩
  intro idx
  exact evaluateAssignee_unresolved
    (findMemberMatches_of_keys_nil (by rw [hg]) (by rw [hg]))

/-- C8 witness: the theorem applied to a whitespace-only raw name and
the one-member roster. -/
theorem c8_empty_never_matches_witness :
    generateAssigneeKeys "  " = ⟨[], []⟩
    ∧ evaluateAssignee "  " annIdx = ⟨[], [], true⟩ := by
  have h := c8_empty_never_matches.1 "  " (by decide)
  exact ⟨h.1, h.2 annIdx⟩

/-- C9: against an empty roster every assignee evaluation is Unresolved
and the per-task aggregation only records failures, and against an
empty bucket snapshot every task with a truthy bucket label is marked
bucketLookupFailed; all of this by total functions, so no exception is
possible. -/
theorem c9_empty_snapshots :
    (∀ name : String, evaluateAssignee name (buildMemberIndex []) = ⟨[], [], true⟩)
    ∧ (∀ task : ParsedTask, processAssigneeTask (buildMemberIndex []) task =
        match task.assignees with
        | some (a :: rest) =>
            { toParsedTask := task, assigneeLookupFailedList := some (a :: rest),
              assigneeNeedsReview := some true }
        | _ =>
            match task.assignee with
            | some s =>
                if s.isEmpty then { toParsedTask := task }
                else { toParsedTask := task, assigneeLookupFailed := some true,
                       assigneeNeedsReview := some true }
            | none => { toParsedTask := task })
    ∧ (∀ tasks : List ProcessedTask, lookupBuckets tasks [] =
        tasks.map (fun t =>
          match t.bucketName with
          | some bn => if bn.isEmpty then t else { t with bucketLookupFailed := some true }
          | none => t)) := by
  refine ⟨evaluateAssignee_empty_roster, ?_, ?_⟩
  · intro task
    rcases ha : task.assignees with _ | ⟨_ | ⟨a, rest⟩⟩ <;>
      [skip; skip; · simp only [processAssigneeTask, ha, mergeAssignees_spec]
                     simp [evaluateAssignee_empty_roster]] <;>
    · simp only [processAssigneeTask, ha]
      rcases hb : task.assignee with _ | s
      · simp only [hb]
      · simp only [hb]
        by_cases he : s.isEmpty = true
        · rw [if_pos he, if_pos he]
        · rw [if_neg he, if_neg he, evaluateAssignee_empty_roster]
          simp
  · intro tasks
    rw [lookupBuckets]
    have hmap : ∀ t ∈ tasks,
        applyBucketInfo (buildBucketMapping (uniqueBucketNames tasks) (buildBucketLookup [])) t
        = (match t.bucketName with
          | some bn => if bn.isEmpty then t else { t with bucketLookupFailed := some true }
          | none => t) := by
      intro t _
      apply applyBucketInfo_all_none
      rw [show buildBucketLookup [] = [] from rfl]
      exact buildBucketMapping_empty_values _
    exact List.map_congr_left hmap

/-- C10: both lookups preserve the length and order of the task batch
and every input field of every task: assignee lookup output projects
back to exactly the input tasks and never writes the bucket fields,
and bucket lookup changes nothing outside the two bucket enrichment
fields.  The embedding is purely functional, so the inputs themselves
are never mutated. -/
theorem c10_frame :
    (∀ (tasks : List ParsedTask) (members : List PlannerMember),
        (lookupAssignees tasks members).map (fun t => t.toParsedTask) = tasks)
    ∧ (∀ (tasks : List ParsedTask) (members : List PlannerMember),
        ∀ t ∈ lookupAssignees tasks members,
          t.bucketInfo = none ∧ t.bucketLookupFailed = none)
    ∧ (∀ (tasks : List ProcessedTask) (buckets : List PlannerBucket),
        (lookupBuckets tasks buckets).map eraseBucketEnrichment
          = tasks.map eraseBucketEnrichment) := by
  refine ⟨lookupAssignees_toParsedTask, ?_, lookupBuckets_erase⟩
  intro tasks members t ht
  rw [lookupAssignees] at ht
  obtain ⟨task, _, rfl⟩ := List.mem_map.1 ht
  exact processAssigneeTask_bucket_none _ task

end Planner
